import Mathlib

/-!
Shallow embedding of the cfgcomment core (`src/crates/core/src/lib.rs`):
the predicate grammar, the predicate evaluator, and the per-file toggle
state machine, together with proofs of the specified properties.

Lines are modelled as lists of characters.  Whitespace is modelled as
ASCII whitespace, on which the source's `char::is_whitespace` (used by
`trim_start`/`trim_end`/`trim`) and `u8::is_ascii_whitespace` (used by
`split_at_ws_end`) agree.  Fallible operations (the source's `unwrap`,
`expect` and out-of-range slice panics) are modelled with `Except`.
-/

namespace Cfg

/-- Characters treated as whitespace by the trimming operations of the core
(space, tab, line feed, carriage return, form feed). -/
def isWs (c : Char) : Bool :=
  c == ' ' || c == '\t' || c == '\n' || c == '\r' || c == '\x0c'

/-- A line of text, modelled as its list of characters. -/
abbrev Line := List Char

/-- Conversion from a string literal to a `Line`. -/
def str (s : String) : Line := s.data

/-- `s.trim_start()` of the source: drop leading whitespace. -/
def trimStart (s : Line) : Line := s.dropWhile isWs

/-- `s.trim_end()` of the source: drop trailing whitespace. -/
def trimEnd (s : Line) : Line := (s.reverse.dropWhile isWs).reverse

/-- `s.trim()` of the source: drop leading and trailing whitespace. -/
def rustTrim (s : Line) : Line := trimEnd (trimStart s)

/-- The configuration `Data` of the core: the set of enabled features
(the `HashSet<String>` is modelled by the list of its member names, with
membership via `List.contains`) and the `reset` flag. -/
structure Data where
  features : List Line
  reset : Bool
deriving DecidableEq

/-- `Data::has_feature`: membership in the enabled-feature set. -/
def Data.has_feature (d : Data) (f : Line) : Bool := d.features.contains f

/-- The leaf predicate type of the core: `Predicate::Feature(name)`. -/
inductive Predicate where
  | Feature (name : Line)
deriving DecidableEq

/-- `Predicate::matches`. -/
def Predicate.matches : Predicate → Data → Bool
  | .Feature f, c => c.has_feature f

/-- The predicate tree `Group`: a leaf option, a conjunction, a
disjunction, or a negation. -/
inductive Group where
  | Option (p : Predicate)
  | All (v : List Group)
  | Any (v : List Group)
  | Not (g : Group)

mutual

/-- `Group::matches`: evaluate a predicate tree against a configuration.
`All` / `Any` use `v.iter().all(..)` / `v.iter().any(..)` in the source,
rendered here by the mutually recursive list evaluators. -/
def Group.matches : Group → Data → Bool
  | .Option o, c => o.matches c
  | .All v, c => Group.matchesAll v c
  | .Any v, c => Group.matchesAny v c
  | .Not g, c => !(g.matches c)

/-- Conjunction over a list of groups (`iter().all`). -/
def Group.matchesAll : List Group → Data → Bool
  | [], _ => true
  | g :: gs, c => g.matches c && Group.matchesAll gs c

/-- Disjunction over a list of groups (`iter().any`). -/
def Group.matchesAny : List Group → Data → Bool
  | [], _ => false
  | g :: gs, c => g.matches c || Group.matchesAny gs c

end

/-- The parse result of a directive body: `CfgTag::Start(Group)` or
`CfgTag::End`. -/
inductive CfgTag where
  | Start (g : Group)
  | End

/-- PEG literal: consume the literal `lit` at the front of the input or
fail. -/
def pLit (lit s : Line) : Option Line :=
  if lit.isPrefixOf s then some (s.drop lit.length) else none

/-- The grammar's `_` rule: consume any run of spaces and tabs. -/
def pWs (s : Line) : Line := s.dropWhile (fun c => c == ' ' || c == '\t')

/-- The grammar's `opt` rule:
`"feature" _ "=" _ QUOTE (any character but a quote)* QUOTE`. -/
def pOpt (s : Line) : Option (Predicate × Line) := do
  let s ← pLit (str "feature") s
  let s := pWs s
  let s ← pLit (str "=") s
  let s := pWs s
  let s ← pLit (str "\"") s
  let name := s.takeWhile (fun c => !(c == '"'))
  let s := s.drop name.length
  let s ← pLit (str "\"") s
  pure (.Feature name, s)

mutual

/-- The grammar's `pred` rule, as an ordered PEG choice:
`any(..)`, `all(..)`, `not(..)`, or a leaf option.  The fuel argument
bounds recursion depth; `parseCfg` supplies more than any input can
consume. -/
def pPred : Nat → Line → Option (Group × Line)
  | 0, _ => none
  | fuel + 1, s =>
    (do
      let s1 ← pLit (str "any") s
      let s1 := pWs s1
      let s1 ← pLit (str "(") s1
      let s1 := pWs s1
      let (l, s1) ← pPredList fuel s1
      let s1 := pWs s1
      let s1 ← pLit (str ")") s1
      pure (Group.Any l, s1)) <|>
    (do
      let s1 ← pLit (str "all") s
      let s1 := pWs s1
      let s1 ← pLit (str "(") s1
      let s1 := pWs s1
      let (l, s1) ← pPredList fuel s1
      let s1 := pWs s1
      let s1 ← pLit (str ")") s1
      pure (Group.All l, s1)) <|>
    (do
      let s1 ← pLit (str "not") s
      let s1 := pWs s1
      let s1 ← pLit (str "(") s1
      let s1 := pWs s1
      let (p, s1) ← pPred fuel s1
      let s1 := pWs s1
      let s1 ← pLit (str ")") s1
      pure (Group.Not p, s1)) <|>
    (do
      let (o, s1) ← pOpt s
      pure (Group.Option o, s1))

/-- The grammar's `pred_list` rule: `pred ** list_sep list_sep()?` —
zero or more comma-separated predicates with an optional trailing
separator. -/
def pPredList : Nat → Line → Option (List Group × Line)
  | 0, _ => none
  | fuel + 1, s =>
    match pPred fuel s with
    | none => some ([], s)
    | some (g, s1) =>
      match pPredListMore fuel s1 with
      | (gs, s2) =>
        match (do
          let s3 := pWs s2
          let s3 ← pLit (str ",") s3
          pure (pWs s3) : Option Line) with
        | some s3 => some (g :: gs, s3)
        | none => some (g :: gs, s2)

/-- Repetition of `list_sep pred`, longest-match with backtracking of a
trailing separator attempt (the separator itself is retried by
`pPredList`). -/
def pPredListMore : Nat → Line → List Group × Line
  | 0, s => ([], s)
  | fuel + 1, s =>
    match (do
      let s1 := pWs s
      let s1 ← pLit (str ",") s1
      let s1 := pWs s1
      pPred fuel s1 : Option (Group × Line)) with
    | none => ([], s)
    | some (g, s1) =>
      match pPredListMore fuel s1 with
      | (gs, s2) => (g :: gs, s2)

end

/-- The grammar's top `cfg` rule: `"[" _ "cfg" _ "(" _ "end" _ ")" _ "]"`
or `"[" _ "cfg" _ "(" _ pred _ ")" _ "]"`, tried in that order. -/
def pCfgTag (fuel : Nat) (s : Line) : Option (CfgTag × Line) :=
  (do
    let s1 ← pLit (str "[") s
    let s1 := pWs s1
    let s1 ← pLit (str "cfg") s1
    let s1 := pWs s1
    let s1 ← pLit (str "(") s1
    let s1 := pWs s1
    let s1 ← pLit (str "end") s1
    let s1 := pWs s1
    let s1 ← pLit (str ")") s1
    let s1 := pWs s1
    let s1 ← pLit (str "]") s1
    pure (CfgTag.End, s1)) <|>
  (do
    let s1 ← pLit (str "[") s
    let s1 := pWs s1
    let s1 ← pLit (str "cfg") s1
    let s1 := pWs s1
    let s1 ← pLit (str "(") s1
    let s1 := pWs s1
    let (p, s1) ← pPred fuel s1
    let s1 := pWs s1
    let s1 ← pLit (str ")") s1
    let s1 := pWs s1
    let s1 ← pLit (str "]") s1
    pure (CfgTag.Start p, s1))

/-- `cfg::cfg(input)`: the top rule must consume the entire input
(rust-peg fails with an expected-EOF error otherwise).  The fuel is a
function of the input alone, so parsing stays a pure function of the
parsed text. -/
def parseCfg (s : Line) : Option CfgTag :=
  match pCfgTag (2 * s.length + 8) s with
  | some (t, []) => some t
  | _ => none

/-- The language descriptor `LangDesc`.  Field names follow the source up
to renaming: `cfgOpen` is the source's directive opening token
(`cfg_prefix`), `cfgMarkerLen` its `cfg_prefix_comment_len`, `cfgClose`
its directive closing token (`cfg_suffix`), and `comment` the comment
marker. -/
structure LangDesc where
  cfgOpen : Line
  cfgMarkerLen : Nat
  cfgClose : Line
  comment : Line
deriving DecidableEq

/-- The ways processing a line can fail, named after the specification's
taxonomy.  The first three are the source's `unwrap`/`expect` panics on
directive parsing, `End` on an empty stack, and `strip_prefix`.
`slicePanic` is the panic of the byte-slice expression taking the
directive body past `cfg_prefix_comment_len` when the directive text is
shorter than that length. -/
inductive Err where
  | directiveParseError
  | unbalancedEnd
  | prefixMismatch
  | slicePanic
deriving DecidableEq

/-- The scope stack `CfgState`: the head is the most recently pushed
frame `(enabled, leading_whitespace)` (the source pushes and pops at the
end of a `Vec` and reads the frame pushed last). -/
abbrev CfgState := List (Bool × Line)

/-- `CfgState::prefix`: the captured whitespace of the innermost frame,
or the empty string for an empty stack. -/
def stackPre (st : CfgState) : Line :=
  match st with
  | [] => []
  | (_, p) :: _ => p

/-- `CfgState::enabled`: the conjunction of every frame's flag
(vacuously true for an empty stack). -/
def stackEnabled (st : CfgState) : Bool := st.all (fun f => f.1)

/-- Classification of a line as a directive line: its
whitespace-trimmed-start form begins with the directive opening token and
its whitespace-trimmed-end form ends with the closing token. -/
def isDirective (d : LangDesc) (s : Line) : Bool :=
  d.cfgOpen.isPrefixOf (trimStart s) && d.cfgClose.isSuffixOf (trimEnd s)

/-- One step of the toggle state machine: process a single line in the
given scope state, producing the rewritten line and the next state, or
one of the four failures.  This is the body of the closure in the
source's `process`, with `split_at_ws_end` rendered by
`takeWhile`/`dropWhile`. -/
def processLine (d : LangDesc) (c : Data) (st : CfgState) (s : Line) :
    Except Err (Line × CfgState) :=
  if isDirective d s then
    let ws := s.takeWhile isWs
    let cfgTxt := s.dropWhile isWs
    if d.cfgMarkerLen ≤ cfgTxt.length then
      match parseCfg (cfgTxt.drop d.cfgMarkerLen) with
      | none => .error .directiveParseError
      | some (.Start g) => .ok (s, (g.matches c, ws) :: st)
      | some .End =>
        match st with
        | [] => .error .unbalancedEnd
        | _ :: rest => .ok (s, rest)
    else .error .slicePanic
  else if rustTrim s == [] then .ok (s, st)
  else
    let reqPre := stackPre st
    if reqPre.isPrefixOf s then
      let trimmed := s.drop reqPre.length
      let enabled := !(d.comment.isPrefixOf trimmed)
      let shouldBe := c.reset || stackEnabled st
      if !enabled && shouldBe then .ok (reqPre ++ trimmed.drop d.comment.length, st)
      else if enabled && !shouldBe then .ok (reqPre ++ d.comment ++ trimmed, st)
      else .ok (s, st)
    else .error .prefixMismatch

/-- Run the toggle state machine over a list of lines from a given scope
state, returning the rewritten lines and the final state. -/
def processFrom (d : LangDesc) (c : Data) : List Line → CfgState →
    Except Err (List Line × CfgState)
  | [], st => .ok ([], st)
  | s :: rest, st =>
    match processLine d c st s with
    | .error e => .error e
    | .ok (t, st2) =>
      match processFrom d c rest st2 with
      | .error e => .error e
      | .ok (ts, stf) => .ok (t :: ts, stf)

/-- The per-file toggle transformation `process`: run the state machine
from the empty scope stack and keep the rewritten lines. -/
def process (d : LangDesc) (c : Data) (l : List Line) : Except Err (List Line) :=
  (processFrom d c l []).map (fun r => r.1)

/-- The standard descriptor of the specification's scenarios. -/
def descA : LangDesc :=
  { cfgOpen := str "//["
    cfgMarkerLen := 2
    cfgClose := str "]"
    comment := str "//# " }

/-- Decidable equality of processing results, for concrete evaluation of
the state machine inside proofs. -/
instance {ε α : Type} [DecidableEq ε] [DecidableEq α] : DecidableEq (Except ε α) :=
  fun a b =>
    match a, b with
    | .ok x, .ok y =>
      if h : x = y then .isTrue (h ▸ rfl)
      else .isFalse (fun k => h (Except.ok.inj k))
    | .ok _, .error _ => .isFalse (fun k => Except.noConfusion k)
    | .error _, .ok _ => .isFalse (fun k => Except.noConfusion k)
    | .error x, .error y =>
      if h : x = y then .isTrue (h ▸ rfl)
      else .isFalse (fun k => h (Except.error.inj k))

/-- `Group.matchesAll` agrees with `List.all`. -/
lemma matchesAll_eq_all (v : List Group) (c : Data) :
    Group.matchesAll v c = v.all (fun g => g.matches c) := by
  induction v with
  | nil => rfl
  | cons g gs ih => simp [Group.matchesAll, ih]

/-- `Group.matchesAny` agrees with `List.any`. -/
lemma matchesAny_eq_any (v : List Group) (c : Data) :
    Group.matchesAny v c = v.any (fun g => g.matches c) := by
  induction v with
  | nil => rfl
  | cons g gs ih => simp [Group.matchesAny, ih]

/-- C6: the predicate evaluator is the expected pure boolean semantics: a
leaf `Option (Feature name)` holds exactly when `name` is an enabled
feature, `All` is the conjunction of its elements (vacuously true when
empty), `Any` is the disjunction (vacuously false when empty), and `Not`
is boolean negation. -/
theorem claim_C6 (c : Data) :
    (∀ name, (Group.Option (.Feature name)).matches c = true ↔ name ∈ c.features) ∧
    (∀ v, (Group.All v).matches c = true ↔ ∀ g ∈ v, g.matches c = true) ∧
    (∀ v, (Group.Any v).matches c = true ↔ ∃ g ∈ v, g.matches c = true) ∧
    (Group.All []).matches c = true ∧
    (Group.Any []).matches c = false ∧
    (∀ g, (Group.Not g).matches c = !(g.matches c)) := by
  refine ⟨fun name => ?_, fun v => ?_, fun v => ?_, rfl, rfl, fun g => rfl⟩
  · show c.has_feature name = true ↔ name ∈ c.features
    simp [Data.has_feature, List.contains, List.elem_iff]
  · show Group.matchesAll v c = true ↔ _
    rw [matchesAll_eq_all]
    exact List.all_eq_true
  · show Group.matchesAny v c = true ↔ _
    rw [matchesAny_eq_any]
    exact List.any_eq_true

/-- The rewriting a content line undergoes once its required prefix has
been checked: this re-expresses the tail of `processLine`'s content
branch as a total function. -/
def contentRewrite (d : LangDesc) (c : Data) (st : CfgState) (s : Line) : Line :=
  let reqPre := stackPre st
  let trimmed := s.drop reqPre.length
  let enabled := !(d.comment.isPrefixOf trimmed)
  let shouldBe := c.reset || stackEnabled st
  if !enabled && shouldBe then reqPre ++ trimmed.drop d.comment.length
  else if enabled && !shouldBe then reqPre ++ d.comment ++ trimmed
  else s

/-- Splitting off a checked prefix and re-appending it restores the line. -/
lemma prefix_drop_append {p s : Line} (h : p.isPrefixOf s = true) :
    p ++ s.drop p.length = s := by
  obtain ⟨u, rfl⟩ := List.isPrefixOf_iff_prefix.mp h
  rw [List.drop_left]

/-- Unfolding `processLine` on a directive line whose trimmed text is at
least the marker length. -/
lemma processLine_dir_eq {d : LangDesc} {c : Data} {st : CfgState} {s : Line}
    (h : isDirective d s = true)
    (hlen : d.cfgMarkerLen ≤ (s.dropWhile isWs).length) :
    processLine d c st s =
      match parseCfg ((s.dropWhile isWs).drop d.cfgMarkerLen) with
      | none => .error .directiveParseError
      | some (.Start g) => .ok (s, (g.matches c, s.takeWhile isWs) :: st)
      | some .End =>
        match st with
        | [] => .error .unbalancedEnd
        | _ :: rest => .ok (s, rest) := by
  simp [processLine, h, hlen]

/-- Unfolding `processLine` on a directive line shorter than the marker
length: the slice panics. -/
lemma processLine_dir_short {d : LangDesc} {c : Data} {st : CfgState} {s : Line}
    (h : isDirective d s = true)
    (hlen : ¬ d.cfgMarkerLen ≤ (s.dropWhile isWs).length) :
    processLine d c st s = .error .slicePanic := by
  simp [processLine, h, hlen]

/-- Unfolding `processLine` on a blank content line: it is emitted
unchanged and the state is neither read nor written. -/
lemma processLine_blank_eq {d : LangDesc} {c : Data} {st : CfgState} {s : Line}
    (h : isDirective d s = false) (hb : rustTrim s = []) :
    processLine d c st s = .ok (s, st) := by
  simp [processLine, h, hb]

/-- Unfolding `processLine` on a non-blank content line carrying the
required prefix. -/
lemma processLine_content_eq {d : LangDesc} {c : Data} {st : CfgState} {s : Line}
    (h : isDirective d s = false) (hb : rustTrim s ≠ [])
    (hp : (stackPre st).isPrefixOf s = true) :
    processLine d c st s = .ok (contentRewrite d c st s, st) := by
  simp [processLine, h, hb, hp, contentRewrite]
  split
  · rfl
  · split <;> rfl

/-- Unfolding `processLine` on a non-blank content line missing the
required prefix. -/
lemma processLine_content_bad {d : LangDesc} {c : Data} {st : CfgState} {s : Line}
    (h : isDirective d s = false) (hb : rustTrim s ≠ [])
    (hp : (stackPre st).isPrefixOf s = false) :
    processLine d c st s = .error .prefixMismatch := by
  simp [processLine, h, hb, hp]

/-- A directive line that processes successfully is emitted unchanged. -/
lemma processLine_dir_unchanged {d : LangDesc} {c : Data} {st st2 : CfgState}
    {s t : Line} (h : isDirective d s = true)
    (hok : processLine d c st s = .ok (t, st2)) : t = s := by
  by_cases hlen : d.cfgMarkerLen ≤ (s.dropWhile isWs).length
  · rw [processLine_dir_eq h hlen] at hok
    split at hok
    · exact absurd hok (by simp)
    · have hinj := Except.ok.inj hok
      exact (congrArg Prod.fst hinj).symm
    · split at hok
      · exact absurd hok (by simp)
      · have hinj := Except.ok.inj hok
        exact (congrArg Prod.fst hinj).symm
  · rw [processLine_dir_short h hlen] at hok
    exact absurd hok (by simp)

/-- A checked prefix is a prefix of itself followed by anything. -/
lemma isPrefixOf_append (p b : Line) : p.isPrefixOf (p ++ b) = true :=
  List.isPrefixOf_iff_prefix.mpr (List.prefix_append p b)

/-- The rewritten content line always begins with the required prefix. -/
lemma contentRewrite_shape {d : LangDesc} {c : Data} {st : CfgState} {s : Line}
    (hp : (stackPre st).isPrefixOf s = true) :
    ∃ body, contentRewrite d c st s = stackPre st ++ body := by
  simp only [contentRewrite]
  split
  · exact ⟨_, rfl⟩
  · split
    · exact ⟨_, List.append_assoc _ _ _⟩
    · exact ⟨s.drop (stackPre st).length, (prefix_drop_append hp).symm⟩

/-- A content line whose visible state already matches the target state is
left unchanged by the rewrite. -/
lemma contentRewrite_fixed {d : LangDesc} {c : Data} {st : CfgState} {t : Line}
    (he : (!(d.comment.isPrefixOf (t.drop (stackPre st).length))) =
      (c.reset || stackEnabled st)) :
    contentRewrite d c st t = t := by
  simp only [contentRewrite]
  rw [← he]
  cases hq : d.comment.isPrefixOf (t.drop (stackPre st).length) <;> simp [hq]

/-- Stability of one processed line under a second pass: the emitted line
is either unchanged, or it is still a content line whose visible comment
state now agrees with the target state. -/
def postOk (d : LangDesc) (c : Data) (st : CfgState) (s : Line) : Bool :=
  match processLine d c st s with
  | .error _ => true
  | .ok (t, _) =>
    t == s ||
    (!(isDirective d t) &&
      ((!(d.comment.isPrefixOf (t.drop (stackPre st).length))) ==
        (c.reset || stackEnabled st)))

/-- Stability of a whole run under a second pass: `postOk` holds at every
line, threading the scope state of the first run. -/
def passStable (d : LangDesc) (c : Data) : CfgState → List Line → Bool
  | _, [] => true
  | st, s :: rest =>
    postOk d c st s &&
    (match processLine d c st s with
     | .ok (_, st2) => passStable d c st2 rest
     | .error _ => true)

/-- A line processed under `postOk` is a fixed point of `processLine` at
the same entry state, with the same exit state. -/
lemma processLine_second {d : LangDesc} {c : Data} {st st2 : CfgState}
    {s t : Line} (hok : processLine d c st s = .ok (t, st2))
    (hp : postOk d c st s = true) :
    processLine d c st t = .ok (t, st2) := by
  by_cases hd : isDirective d s = true
  · have ht : t = s := processLine_dir_unchanged hd hok
    subst ht
    exact hok
  · have hd2 : isDirective d s = false := by
      cases hval : isDirective d s
      · rfl
      · exact absurd hval hd
    by_cases hb : rustTrim s = []
    · rw [processLine_blank_eq hd2 hb] at hok
      have hinj := Except.ok.inj hok
      have ht : s = t := congrArg Prod.fst hinj
      have hst : st = st2 := congrArg Prod.snd hinj
      rw [← ht, ← hst]
      exact processLine_blank_eq hd2 hb
    · cases hpre : (stackPre st).isPrefixOf s with
      | false =>
        rw [processLine_content_bad hd2 hb hpre] at hok
        exact absurd hok (by simp)
      | true =>
        rw [processLine_content_eq hd2 hb hpre] at hok
        have hinj := Except.ok.inj hok
        have ht : contentRewrite d c st s = t := congrArg Prod.fst hinj
        have hst : st = st2 := congrArg Prod.snd hinj
        unfold postOk at hp
        rw [processLine_content_eq hd2 hb hpre, ht] at hp
        simp only [Bool.or_eq_true] at hp
        rcases hp with hts | hrest
        · have hts2 : t = s := by simpa using hts
          rw [hts2, ← hst]
          rw [processLine_content_eq hd2 hb hpre, ht, hts2]
        · simp only [Bool.and_eq_true] at hrest
          have hnd : isDirective d t = false := by
            have := hrest.1
            simpa using this
          have he : (!(d.comment.isPrefixOf (t.drop (stackPre st).length))) =
              (c.reset || stackEnabled st) := by
            have := hrest.2
            simpa using this
          by_cases hbt : rustTrim t = []
          · rw [processLine_blank_eq hnd hbt, ← hst]
          · obtain ⟨body, hbody⟩ := contentRewrite_shape (d := d) (c := c) hpre
            have hpt : (stackPre st).isPrefixOf t = true := by
              rw [← ht, hbody]
              exact isPrefixOf_append _ _
            rw [processLine_content_eq hnd hbt hpt, contentRewrite_fixed he, ← hst]

/-- A run satisfying `passStable` is replayed verbatim by a second pass
from the same entry state. -/
lemma processFrom_second {d : LangDesc} {c : Data} :
    ∀ {l m : List Line} {st stf : CfgState},
      processFrom d c l st = .ok (m, stf) → passStable d c st l = true →
      processFrom d c m st = .ok (m, stf) := by
  intro l
  induction l with
  | nil =>
    intro m st stf hok hp
    have hinj := Except.ok.inj hok
    have hm : ([] : List Line) = m := congrArg Prod.fst hinj
    have hst : st = stf := congrArg Prod.snd hinj
    rw [← hm, ← hst]
    rfl
  | cons s rest ih =>
    intro m st stf hok hp
    simp only [processFrom] at hok
    simp only [passStable] at hp
    cases hline : processLine d c st s with
    | error e => simp [hline] at hok
    | ok r =>
      obtain ⟨t, st2⟩ := r
      simp only [hline] at hok hp
      cases htail : processFrom d c rest st2 with
      | error e => simp [htail] at hok
      | ok rr =>
        obtain ⟨ts, stf2⟩ := rr
        simp only [htail] at hok
        have hinj := Except.ok.inj hok
        have hm : t :: ts = m := congrArg Prod.fst hinj
        have hstf : stf2 = stf := congrArg Prod.snd hinj
        simp only [Bool.and_eq_true] at hp
        have hsecond := processLine_second hline hp.1
        have hrest := ih htail hp.2
        rw [← hm, ← hstf]
        simp only [processFrom, hsecond, hrest]

/-- C1, amended: the per-file toggle transformation is idempotent per
configuration on every run that is second-pass stable — that is, whenever
each rewritten line is still a non-directive line whose visible comment
state agrees with the target state (which rules out content lines hiding
a doubled comment marker and rewrites that turn a content line into a
directive or an extra-marked line).  Without that proviso idempotence
fails; see the counterexample. -/
theorem claim_C1 (d : LangDesc) (c : Data) (l : List Line)
    (hp : passStable d c [] l = true) :
    (process d c l).bind (process d c) = process d c l := by
  unfold process
  cases hfrom : processFrom d c l [] with
  | error e => rfl
  | ok r =>
    obtain ⟨m, stf⟩ := r
    have h2 := processFrom_second hfrom hp
    simp [Except.map, Except.bind, h2]

/-- C1 fails as stated: a doubly commented content line loses one comment
marker per pass, so the second pass changes the first pass's output. -/
theorem claim_C1_counterexample :
    ¬ ((process descA ⟨[], false⟩ [str "//# //# x"]).bind (process descA ⟨[], false⟩) =
        process descA ⟨[], false⟩ [str "//# //# x"]) := by
  decide

/-- Witness for C1 on Scenario A's input, where the stability proviso
holds and the theorem applies. -/
theorem claim_C1_witness :
    passStable descA ⟨[str "x"], false⟩ []
        [str "//[cfg(feature = \"x\")]", str "//# line_a();", str "//[cfg(end)]"] = true ∧
    (process descA ⟨[str "x"], false⟩
        [str "//[cfg(feature = \"x\")]", str "//# line_a();", str "//[cfg(end)]"]).bind
        (process descA ⟨[str "x"], false⟩) =
      process descA ⟨[str "x"], false⟩
        [str "//[cfg(feature = \"x\")]", str "//# line_a();", str "//[cfg(end)]"] :=
  ⟨by decide, claim_C1 descA ⟨[str "x"], false⟩
    [str "//[cfg(feature = \"x\")]", str "//# line_a();", str "//[cfg(end)]"] (by decide)⟩

/-- C8: directive lines and blank lines are frames: a directive line that
processes successfully is emitted unchanged (whatever the configuration,
reset included), and a blank content line is emitted unchanged with the
scope stack passed through untouched. -/
theorem claim_C8 (d : LangDesc) (c : Data) :
    (∀ (st st2 : CfgState) (s t : Line), isDirective d s = true →
        processLine d c st s = .ok (t, st2) → t = s) ∧
    (∀ (st : CfgState) (s : Line), isDirective d s = false → rustTrim s = [] →
        processLine d c st s = .ok (s, st)) :=
  ⟨fun _ _ _ _ h hok => processLine_dir_unchanged h hok,
   fun _ _ h hb => processLine_blank_eq h hb⟩

/-- Witness for C8: a directive line processed inside one open scope comes
back verbatim, and an all-blank line is passed through with the stack
intact. -/
theorem claim_C8_witness :
    str "//[cfg(end)]" = str "//[cfg(end)]" ∧
    processLine descA ⟨[], false⟩ [(true, str "  ")] (str "   ") =
      .ok (str "   ", [(true, str "  ")]) :=
  ⟨(claim_C8 descA ⟨[], false⟩).1 [(true, [])] [] (str "//[cfg(end)]") (str "//[cfg(end)]")
      (by decide) (by decide),
   (claim_C8 descA ⟨[], false⟩).2 [(true, str "  ")] (str "   ") (by decide) (by decide)⟩

/-- A successfully processed non-blank content line carried the required
prefix, was rewritten by `contentRewrite`, and left the state unchanged. -/
lemma processLine_content_ok_pre {d : LangDesc} {c : Data} {st st2 : CfgState}
    {s t : Line} (h : isDirective d s = false) (hb : rustTrim s ≠ [])
    (hok : processLine d c st s = .ok (t, st2)) :
    (stackPre st).isPrefixOf s = true ∧ t = contentRewrite d c st s ∧ st2 = st := by
  cases hpre : (stackPre st).isPrefixOf s with
  | false =>
    rw [processLine_content_bad h hb hpre] at hok
    exact absurd hok (by simp)
  | true =>
    rw [processLine_content_eq h hb hpre] at hok
    have hinj := Except.ok.inj hok
    exact ⟨rfl, (congrArg Prod.fst hinj).symm, (congrArg Prod.snd hinj).symm⟩

/-- Under `reset`, the rewrite strips one leading comment marker from the
line body when one is present and otherwise leaves the line alone. -/
lemma contentRewrite_reset {d : LangDesc} {c : Data} {st : CfgState} {s : Line}
    (hr : c.reset = true) :
    contentRewrite d c st s =
      if d.comment.isPrefixOf (s.drop (stackPre st).length) then
        stackPre st ++ (s.drop (stackPre st).length).drop d.comment.length
      else s := by
  simp only [contentRewrite, hr]
  cases hq : d.comment.isPrefixOf (s.drop (stackPre st).length) <;> simp [hq]

/-- C4, amended: with `reset = true`, one run removes exactly one leading
comment marker from each non-blank content line whose body carries one
(and leaves marker-free content lines alone), at any nesting depth and
for any feature set; directive lines are untouched.  A body carrying a
doubled marker therefore still starts with a marker afterwards — the
unconditional "forced to the active state" reading fails; see the
counterexample. -/
theorem claim_C4 (d : LangDesc) (c : Data) (hr : c.reset = true) :
    (∀ (st st2 : CfgState) (s t : Line), isDirective d s = true →
        processLine d c st s = .ok (t, st2) → t = s) ∧
    (∀ (st st2 : CfgState) (s t : Line), isDirective d s = false →
        rustTrim s ≠ [] → processLine d c st s = .ok (t, st2) →
        t = if d.comment.isPrefixOf (s.drop (stackPre st).length) then
              stackPre st ++ (s.drop (stackPre st).length).drop d.comment.length
            else s) := by
  refine ⟨fun _ _ _ _ h hok => processLine_dir_unchanged h hok,
    fun st st2 s t h hb hok => ?_⟩
  obtain ⟨hpre, ht, hst⟩ := processLine_content_ok_pre h hb hok
  rw [ht, contentRewrite_reset hr]

/-- C4 fails as stated: under `reset`, a doubly commented line keeps a
leading comment marker after the run, so it is not forced to the active
(uncommented) state. -/
theorem claim_C4_counterexample :
    process descA ⟨[], true⟩ [str "//# //# x"] = .ok [str "//# x"] ∧
    descA.comment.isPrefixOf (str "//# x") = true := by
  decide

/-- Witness for C4: a singly commented line at top level has its marker
stripped by a reset run. -/
theorem claim_C4_witness :
    str "//[cfg(end)]" = str "//[cfg(end)]" ∧
    str "y" =
      (if descA.comment.isPrefixOf ((str "//# y").drop (stackPre ([] : CfgState)).length) then
        stackPre ([] : CfgState) ++
          ((str "//# y").drop (stackPre ([] : CfgState)).length).drop descA.comment.length
      else str "//# y") :=
  ⟨(claim_C4 descA ⟨[], true⟩ rfl).1 [(true, [])] [] (str "//[cfg(end)]")
      (str "//[cfg(end)]") (by decide) (by decide),
   (claim_C4 descA ⟨[], true⟩ rfl).2 [] [] (str "//# y") (str "y")
      (by decide) (by decide) (by decide)⟩

/-- The relation between an input line and its processed output: the
output is the input itself, or the input with the comment marker inserted
after its required prefix, or the input with the comment marker removed
from after its required prefix. -/
def lineShape (d : LangDesc) (s t : Line) : Prop :=
  ∃ pre b, s = pre ++ b ∧
    (t = s ∨ t = pre ++ d.comment ++ b ∨
      ∃ b2, b = d.comment ++ b2 ∧ t = pre ++ b2)

/-- Every successfully processed line satisfies `lineShape`. -/
lemma processLine_shape {d : LangDesc} {c : Data} {st st2 : CfgState}
    {s t : Line} (hok : processLine d c st s = .ok (t, st2)) :
    lineShape d s t := by
  by_cases hdir : isDirective d s = true
  · exact ⟨[], s, rfl, Or.inl (processLine_dir_unchanged hdir hok)⟩
  · have hd2 : isDirective d s = false := by
      cases hval : isDirective d s
      · rfl
      · exact absurd hval hdir
    by_cases hb : rustTrim s = []
    · rw [processLine_blank_eq hd2 hb] at hok
      exact ⟨[], s, rfl, Or.inl (congrArg Prod.fst (Except.ok.inj hok)).symm⟩
    · obtain ⟨hpre, ht, hst⟩ := processLine_content_ok_pre hd2 hb hok
      subst ht
      refine ⟨stackPre st, s.drop (stackPre st).length,
        (prefix_drop_append hpre).symm, ?_⟩
      simp only [contentRewrite]
      split
      · next hcond =>
        simp only [Bool.and_eq_true, Bool.not_not] at hcond
        right; right
        exact ⟨(s.drop (stackPre st).length).drop d.comment.length,
          (prefix_drop_append hcond.1).symm, rfl⟩
      · split
        · right; left; rfl
        · left; rfl

/-- Successful runs relate input and output lines pointwise by
`lineShape`. -/
lemma processFrom_forall2 {d : LangDesc} {c : Data} :
    ∀ {l m : List Line} {st stf : CfgState},
      processFrom d c l st = .ok (m, stf) → List.Forall₂ (lineShape d) l m := by
  intro l
  induction l with
  | nil =>
    intro m st stf hok
    have hm : ([] : List Line) = m := congrArg Prod.fst (Except.ok.inj hok)
    subst hm
    exact List.Forall₂.nil
  | cons s rest ih =>
    intro m st stf hok
    simp only [processFrom] at hok
    cases hline : processLine d c st s with
    | error e => simp [hline] at hok
    | ok r =>
      obtain ⟨t, st2⟩ := r
      simp only [hline] at hok
      cases htail : processFrom d c rest st2 with
      | error e => simp [htail] at hok
      | ok rr =>
        obtain ⟨ts, stf2⟩ := rr
        simp only [htail] at hok
        have hm : t :: ts = m := congrArg Prod.fst (Except.ok.inj hok)
        subst hm
        exact List.Forall₂.cons (processLine_shape hline) (ih htail)

/-- C7: a successful run emits exactly one output line per input line (the
lengths agree), and each output line is its input line with at most the
comment marker inserted or removed right after its required prefix. -/
theorem claim_C7 (d : LangDesc) (c : Data) (l m : List Line)
    (hok : process d c l = .ok m) :
    m.length = l.length ∧ List.Forall₂ (lineShape d) l m := by
  unfold process at hok
  cases hfrom : processFrom d c l [] with
  | error e => rw [hfrom] at hok; exact absurd hok (by simp [Except.map])
  | ok r =>
    obtain ⟨m2, stf⟩ := r
    rw [hfrom] at hok
    have hm : m2 = m := by simpa [Except.map] using hok
    subst hm
    have h2 := processFrom_forall2 hfrom
    exact ⟨h2.length_eq.symm, h2⟩

/-- Witness for C7 on Scenario A's input. -/
theorem claim_C7_witness :
    ([str "//[cfg(feature = \"x\")]", str "line_a();", str "//[cfg(end)]"] : List Line).length =
      ([str "//[cfg(feature = \"x\")]", str "//# line_a();", str "//[cfg(end)]"] : List Line).length ∧
    List.Forall₂ (lineShape descA)
      [str "//[cfg(feature = \"x\")]", str "//# line_a();", str "//[cfg(end)]"]
      [str "//[cfg(feature = \"x\")]", str "line_a();", str "//[cfg(end)]"] :=
  claim_C7 descA ⟨[str "x"], false⟩
    [str "//[cfg(feature = \"x\")]", str "//# line_a();", str "//[cfg(end)]"]
    [str "//[cfg(feature = \"x\")]", str "line_a();", str "//[cfg(end)]"] (by decide)

/-- The directive tag carried by a line, if any: the line must classify
as a directive, be long enough for the marker slice, and parse. -/
def dirTag (d : LangDesc) (s : Line) : Option CfgTag :=
  if isDirective d s then
    if d.cfgMarkerLen ≤ (s.dropWhile isWs).length then
      parseCfg ((s.dropWhile isWs).drop d.cfgMarkerLen)
    else none
  else none

/-- A line carrying a `Start` directive. -/
def isStartLine (d : LangDesc) (s : Line) : Bool :=
  match dirTag d s with
  | some (.Start _) => true
  | _ => false

/-- A line carrying an `End` directive. -/
def isEndLine (d : LangDesc) (s : Line) : Bool :=
  match dirTag d s with
  | some .End => true
  | _ => false

/-- Effect of one successful step on the scope-stack depth: `Start` pushes
one frame, `End` pops one, everything else leaves the stack unchanged. -/
lemma processLine_stack_delta {d : LangDesc} {c : Data} {st st2 : CfgState}
    {s t : Line} (hok : processLine d c st s = .ok (t, st2)) :
    (isStartLine d s = true ∧ st2.length = st.length + 1) ∨
    (isEndLine d s = true ∧ st.length = st2.length + 1) ∨
    (isStartLine d s = false ∧ isEndLine d s = false ∧ st2 = st) := by
  by_cases hdir : isDirective d s = true
  · by_cases hlen : d.cfgMarkerLen ≤ (s.dropWhile isWs).length
    · rw [processLine_dir_eq hdir hlen] at hok
      cases hpc : parseCfg ((s.dropWhile isWs).drop d.cfgMarkerLen) with
      | none => rw [hpc] at hok; exact absurd hok (by simp)
      | some tag =>
        rw [hpc] at hok
        cases tag with
        | Start g =>
          left
          constructor
          · simp [isStartLine, dirTag, hdir, hlen, hpc]
          · have hst : (g.matches c, s.takeWhile isWs) :: st = st2 :=
              congrArg Prod.snd (Except.ok.inj hok)
            rw [← hst]
            rfl
        | End =>
          cases st with
          | nil => exact absurd hok (by simp)
          | cons fr rest =>
            right; left
            constructor
            · simp [isEndLine, dirTag, hdir, hlen, hpc]
            · have hst : rest = st2 := congrArg Prod.snd (Except.ok.inj hok)
              rw [← hst]
              rfl
    · rw [processLine_dir_short hdir hlen] at hok
      exact absurd hok (by simp)
  · have hd2 : isDirective d s = false := by
      cases hval : isDirective d s
      · rfl
      · exact absurd hval hdir
    have hstart : isStartLine d s = false := by simp [isStartLine, dirTag, hd2]
    have hend : isEndLine d s = false := by simp [isEndLine, dirTag, hd2]
    by_cases hb : rustTrim s = []
    · rw [processLine_blank_eq hd2 hb] at hok
      exact Or.inr (Or.inr ⟨hstart, hend,
        (congrArg Prod.snd (Except.ok.inj hok)).symm⟩)
    · obtain ⟨hpre, ht, hst⟩ := processLine_content_ok_pre hd2 hb hok
      exact Or.inr (Or.inr ⟨hstart, hend, hst⟩)

/-- A line cannot carry both a `Start` and an `End` directive. -/
lemma start_not_end {d : LangDesc} {s : Line} (h : isStartLine d s = true) :
    isEndLine d s = false := by
  unfold isStartLine at h
  unfold isEndLine
  cases hdt : dirTag d s with
  | none => rfl
  | some tag => cases tag <;> simp_all

/-- A line cannot carry both an `End` and a `Start` directive. -/
lemma end_not_start {d : LangDesc} {s : Line} (h : isEndLine d s = true) :
    isStartLine d s = false := by
  unfold isEndLine at h
  unfold isStartLine
  cases hdt : dirTag d s with
  | none => rfl
  | some tag => cases tag <;> simp_all

/-- Stack-depth bookkeeping over a successful run: final depth plus the
number of `End` directives equals initial depth plus the number of
`Start` directives. -/
lemma processFrom_count {d : LangDesc} {c : Data} :
    ∀ {l m : List Line} {st stf : CfgState},
      processFrom d c l st = .ok (m, stf) →
      stf.length + l.countP (isEndLine d) = st.length + l.countP (isStartLine d) := by
  intro l
  induction l with
  | nil =>
    intro m st stf hok
    have hst : st = stf := congrArg Prod.snd (Except.ok.inj hok)
    simp [← hst, List.countP_nil]
  | cons s rest ih =>
    intro m st stf hok
    simp only [processFrom] at hok
    cases hline : processLine d c st s with
    | error e => simp [hline] at hok
    | ok r =>
      obtain ⟨t, st2⟩ := r
      simp only [hline] at hok
      cases htail : processFrom d c rest st2 with
      | error e => simp [htail] at hok
      | ok rr =>
        obtain ⟨ts, stf2⟩ := rr
        simp only [htail] at hok
        have hstf : stf2 = stf := congrArg Prod.snd (Except.ok.inj hok)
        subst hstf
        have hrest := ih htail
        rcases processLine_stack_delta hline with ⟨hs, hd⟩ | ⟨hs, hd⟩ | ⟨hs1, hs2, hd⟩
        · have hend := start_not_end hs
          simp [List.countP_cons, hs, hend]
          omega
        · have hstart := end_not_start hs
          simp [List.countP_cons, hs, hstart]
          omega
        · subst hd
          simp [List.countP_cons, hs1, hs2]
          omega

/-- An `End` directive reaching an empty scope stack fails with
`UnbalancedEnd`. -/
lemma processLine_end_empty {d : LangDesc} {c : Data} {s : Line}
    (h : isEndLine d s = true) :
    processLine d c [] s = .error .unbalancedEnd := by
  unfold isEndLine dirTag at h
  by_cases hdir : isDirective d s = true
  · by_cases hlen : d.cfgMarkerLen ≤ (s.dropWhile isWs).length
    · simp only [hdir, hlen, if_true] at h
      cases hpc : parseCfg ((s.dropWhile isWs).drop d.cfgMarkerLen) with
      | none => rw [hpc] at h; exact absurd h (by simp)
      | some tag =>
        rw [hpc] at h
        cases tag with
        | Start g => exact absurd h (by simp)
        | End => rw [processLine_dir_eq hdir hlen, hpc]
    · simp [hdir, hlen] at h
  · simp [hdir] at h

/-- C3, amended: over any successfully processed input, the number of
`Start` directives encountered equals the number of `End` directives plus
the final scope-stack depth (so the stack is empty at completion exactly
when the counts agree), and an `End` directive reaching an empty stack
raises `UnbalancedEnd`.  A `Start` left unterminated at end of input is
tolerated: processing succeeds with a non-empty final stack; see the
counterexample. -/
theorem claim_C3 (d : LangDesc) (c : Data) :
    (∀ (l m : List Line) (stf : CfgState),
        processFrom d c l [] = .ok (m, stf) →
        l.countP (isStartLine d) = l.countP (isEndLine d) + stf.length) ∧
    (∀ s : Line, isEndLine d s = true →
        processLine d c [] s = .error .unbalancedEnd) := by
  constructor
  · intro l m stf hok
    have h := processFrom_count hok
    simp only [List.length_nil] at h
    omega
  · intro s h
    exact processLine_end_empty h

/-- C3 fails as stated: a lone `Start` directive is well formed in the
claim's sense (every `End` is matched — there are none) yet processing
succeeds with one `Start`, zero `End`s, and a non-empty final stack, and
no `UnbalancedEnd` is raised for the unterminated `Start`. -/
theorem claim_C3_counterexample :
    processFrom descA ⟨[], false⟩ [str "//[cfg(feature = \"x\")]"] [] =
      .ok ([str "//[cfg(feature = \"x\")]"], [(false, [])]) ∧
    [str "//[cfg(feature = \"x\")]"].countP (isStartLine descA) = 1 ∧
    [str "//[cfg(feature = \"x\")]"].countP (isEndLine descA) = 0 := by
  decide

/-- Witness for C3: the balanced Scenario A input ends with an empty
stack and equal counts, and a bare `End` directive on an empty stack is
rejected. -/
theorem claim_C3_witness :
    ([str "//[cfg(feature = \"x\")]", str "//# line_a();", str "//[cfg(end)]"].countP
        (isStartLine descA) =
      [str "//[cfg(feature = \"x\")]", str "//# line_a();", str "//[cfg(end)]"].countP
        (isEndLine descA) + ([] : CfgState).length) ∧
    processLine descA ⟨[], false⟩ [] (str "//[cfg(end)]") = .error .unbalancedEnd :=
  ⟨(claim_C3 descA ⟨[str "x"], false⟩).1
      [str "//[cfg(feature = \"x\")]", str "//# line_a();", str "//[cfg(end)]"]
      [str "//[cfg(feature = \"x\")]", str "line_a();", str "//[cfg(end)]"] []
      (by decide),
   (claim_C3 descA ⟨[], false⟩).2 (str "//[cfg(end)]") (by decide)⟩

/-- C5, amended: processing a line fails exactly in one of FOUR cases:
the line is a directive whose whitespace-stripped text is shorter than
the marker length (the out-of-range slice panic, absent from the
specification's three-error taxonomy), a directive whose sliced body does
not parse (`DirectiveParseError`), an `End` directive reaching an empty
scope stack (`UnbalancedEnd`), or a non-blank content line missing the
required prefix (`PrefixMismatch`); in every other case the line
processes successfully. -/
theorem claim_C5 (d : LangDesc) (c : Data) (st : CfgState) (s : Line) (e : Err) :
    processLine d c st s = .error e ↔
      ((isDirective d s = true ∧ ¬ d.cfgMarkerLen ≤ (s.dropWhile isWs).length ∧
          e = .slicePanic) ∨
        (isDirective d s = true ∧ d.cfgMarkerLen ≤ (s.dropWhile isWs).length ∧
          parseCfg ((s.dropWhile isWs).drop d.cfgMarkerLen) = none ∧
          e = .directiveParseError) ∨
        (isDirective d s = true ∧ d.cfgMarkerLen ≤ (s.dropWhile isWs).length ∧
          parseCfg ((s.dropWhile isWs).drop d.cfgMarkerLen) = some .End ∧ st = [] ∧
          e = .unbalancedEnd) ∨
        (isDirective d s = false ∧ rustTrim s ≠ [] ∧
          (stackPre st).isPrefixOf s = false ∧ e = .prefixMismatch)) := by
  constructor
  · intro h
    by_cases hdir : isDirective d s = true
    · by_cases hlen : d.cfgMarkerLen ≤ (s.dropWhile isWs).length
      · rw [processLine_dir_eq hdir hlen] at h
        cases hpc : parseCfg ((s.dropWhile isWs).drop d.cfgMarkerLen) with
        | none =>
          rw [hpc] at h
          exact Or.inr (Or.inl ⟨hdir, hlen, rfl, (Except.error.inj h).symm⟩)
        | some tag =>
          rw [hpc] at h
          cases tag with
          | Start g => exact absurd h (by simp)
          | End =>
            cases st with
            | nil =>
              exact Or.inr (Or.inr (Or.inl
                ⟨hdir, hlen, rfl, rfl, (Except.error.inj h).symm⟩))
            | cons fr rest => exact absurd h (by simp)
      · rw [processLine_dir_short hdir hlen] at h
        exact Or.inl ⟨hdir, hlen, (Except.error.inj h).symm⟩
    · have hd2 : isDirective d s = false := by
        cases hval : isDirective d s
        · rfl
        · exact absurd hval hdir
      by_cases hb : rustTrim s = []
      · rw [processLine_blank_eq hd2 hb] at h
        exact absurd h (by simp)
      · cases hpre : (stackPre st).isPrefixOf s with
        | true =>
          rw [processLine_content_eq hd2 hb hpre] at h
          exact absurd h (by simp)
        | false =>
          rw [processLine_content_bad hd2 hb hpre] at h
          exact Or.inr (Or.inr (Or.inr ⟨hd2, hb, rfl, (Except.error.inj h).symm⟩))
  · rintro (⟨hdir, hlen, he⟩ | ⟨hdir, hlen, hpc, he⟩ |
      ⟨hdir, hlen, hpc, hst, he⟩ | ⟨hdir, hb, hpre, he⟩)
    · subst he
      exact processLine_dir_short hdir hlen
    · subst he
      rw [processLine_dir_eq hdir hlen, hpc]
    · subst he
      subst hst
      rw [processLine_dir_eq hdir hlen, hpc]
    · subst he
      exact processLine_content_bad hdir hb hpre

/-- A descriptor whose marker length exceeds the length of a short
directive line, triggering the slice panic. -/
def descShort : LangDesc :=
  { cfgOpen := str "//["
    cfgMarkerLen := 13
    cfgClose := str "]"
    comment := str "//# " }

/-- C5 fails as stated: the taxonomy has a fourth member.  A directive
line shorter than the marker length makes processing fail with the slice
panic, which is none of `DirectiveParseError`, `UnbalancedEnd`,
`PrefixMismatch`. -/
theorem claim_C5_counterexample :
    process descShort ⟨[], false⟩ [str "//[cfg(end)]"] = .error .slicePanic ∧
    Err.slicePanic ≠ .directiveParseError ∧ Err.slicePanic ≠ .unbalancedEnd ∧
    Err.slicePanic ≠ .prefixMismatch := by
  decide

mutual

/-- Predicate evaluation depends on the feature set only through
membership: configurations with extensionally equal `contains` agree. -/
theorem matches_congr {c1 c2 : Data}
    (h : ∀ f, c1.features.contains f = c2.features.contains f) :
    ∀ g : Group, g.matches c1 = g.matches c2
  | .Option (.Feature f) => h f
  | .All v => by
    simp only [Group.matches]
    exact matchesAll_congr h v
  | .Any v => by
    simp only [Group.matches]
    exact matchesAny_congr h v
  | .Not g => by
    simp only [Group.matches]
    rw [matches_congr h g]

/-- List version of `matches_congr` for conjunctions. -/
theorem matchesAll_congr {c1 c2 : Data}
    (h : ∀ f, c1.features.contains f = c2.features.contains f) :
    ∀ v : List Group, Group.matchesAll v c1 = Group.matchesAll v c2
  | [] => rfl
  | g :: gs => by
    simp only [Group.matchesAll]
    rw [matches_congr h g, matchesAll_congr h gs]

/-- List version of `matches_congr` for disjunctions. -/
theorem matchesAny_congr {c1 c2 : Data}
    (h : ∀ f, c1.features.contains f = c2.features.contains f) :
    ∀ v : List Group, Group.matchesAny v c1 = Group.matchesAny v c2
  | [] => rfl
  | g :: gs => by
    simp only [Group.matchesAny]
    rw [matches_congr h g, matchesAny_congr h gs]

end

/-- One processing step is a pure function of membership in the feature
set and the reset flag. -/
lemma processLine_congr {d : LangDesc} {c1 c2 : Data} {st : CfgState} {s : Line}
    (hm : ∀ g : Group, g.matches c1 = g.matches c2) (hr : c1.reset = c2.reset) :
    processLine d c1 st s = processLine d c2 st s := by
  simp only [processLine, hm, hr]

/-- A whole run is a pure function of membership in the feature set and
the reset flag. -/
lemma processFrom_congr {d : LangDesc} {c1 c2 : Data}
    (hm : ∀ g : Group, g.matches c1 = g.matches c2) (hr : c1.reset = c2.reset) :
    ∀ (l : List Line) (st : CfgState),
      processFrom d c1 l st = processFrom d c2 l st := by
  intro l
  induction l with
  | nil => intro st; rfl
  | cons s rest ih =>
    intro st
    simp only [processFrom, processLine_congr hm hr, ih]

/-- C10: the per-file toggle transformation is deterministic — in the
embedding it is a pure function of its three inputs, so two runs on the
same inputs are literally the same value — and, capturing the "unordered
feature set" aspect, its result depends on the configuration only through
membership in the feature set and the reset flag, not on the order or
multiplicity of the stored feature names, nor on the internal scope
stack's representation. -/
theorem claim_C10 (d : LangDesc) (c1 c2 : Data) (l : List Line)
    (hf : ∀ f, c1.features.contains f = c2.features.contains f)
    (hr : c1.reset = c2.reset) :
    process d c1 l = process d c2 l := by
  unfold process
  rw [processFrom_congr (matches_congr hf) hr]

/-- Witness for C10: storing the feature list in different order and with
a duplicate leaves the Scenario A run unchanged. -/
theorem claim_C10_witness :
    process descA ⟨[str "x", str "y"], false⟩
        [str "//[cfg(feature = \"x\")]", str "//# line_a();", str "//[cfg(end)]"] =
      process descA ⟨[str "y", str "x", str "x"], false⟩
        [str "//[cfg(feature = \"x\")]", str "//# line_a();", str "//[cfg(end)]"] :=
  claim_C10 descA ⟨[str "x", str "y"], false⟩ ⟨[str "y", str "x", str "x"], false⟩
    [str "//[cfg(feature = \"x\")]", str "//# line_a();", str "//[cfg(end)]"]
    (by
      intro f
      simp [List.contains_cons]
      exact Bool.or_comm _ _)
    rfl

/-- C9, Scenario A: with the standard descriptor and the single enabled
feature `x`, the three-line example is rewritten by stripping the comment
marker from the middle line, with both directive lines unchanged. -/
theorem claim_C9 :
    process descA ⟨[str "x"], false⟩
      [str "//[cfg(feature = \"x\")]", str "//# line_a();", str "//[cfg(end)]"] =
    .ok [str "//[cfg(feature = \"x\")]", str "line_a();", str "//[cfg(end)]"] := by
  rfl

/-- Two scope stacks with the same captured prefixes (their `enabled`
flags may differ).  Runs of the same input under different feature
configurations keep their stacks in this relation. -/
def samePre (st1 st2 : CfgState) : Prop :=
  st1.map Prod.snd = st2.map Prod.snd

/-- Stacks in `samePre` expose the same required prefix. -/
lemma samePre_stackPre {st1 st2 : CfgState} (h : samePre st1 st2) :
    stackPre st1 = stackPre st2 := by
  unfold samePre at h
  cases st1 with
  | nil =>
    cases st2 with
    | nil => rfl
    | cons b m => simp at h
  | cons a l =>
    cases st2 with
    | nil => simp at h
    | cons b m =>
      simp only [List.map_cons, List.cons.injEq] at h
      simp [stackPre, h.1]

/-- A line is blank (`trim().is_empty()`) exactly when all its characters
are whitespace. -/
lemma rustTrim_nil_iff : ∀ s : Line, (rustTrim s = [] ↔ ∀ c ∈ s, isWs c = true) := by
  intro s
  induction s with
  | nil => simp [rustTrim, trimStart, trimEnd]
  | cons c cs ih =>
    by_cases hw : isWs c = true
    · simp only [rustTrim, trimStart, List.dropWhile_cons, hw, if_true] at ih ⊢
      simp [hw, ih]
    · simp only [rustTrim, trimStart, List.dropWhile_cons, hw] at ih ⊢
      simp only [Bool.false_eq_true, if_false]
      constructor
      · intro h
        exfalso
        unfold trimEnd at h
        rw [List.reverse_eq_nil_iff, List.dropWhile_eq_nil_iff] at h
        exact hw (h c (by simp))
      · intro h
        exact absurd (h c (by simp)) hw

/-- Runs of the same lines under two configurations stay in lock step:
they fail together with the same error, or both succeed with stacks again
in `samePre`. -/
lemma processLine_parallel {d : LangDesc} {c1 c2 : Data} {st1 st2 : CfgState}
    {s : Line} (h : samePre st1 st2) :
    (∃ e, processLine d c1 st1 s = .error e ∧ processLine d c2 st2 s = .error e) ∨
    (∃ t1 t2 st1b st2b, processLine d c1 st1 s = .ok (t1, st1b) ∧
      processLine d c2 st2 s = .ok (t2, st2b) ∧ samePre st1b st2b) := by
  by_cases hdir : isDirective d s = true
  · by_cases hlen : d.cfgMarkerLen ≤ (s.dropWhile isWs).length
    · cases hpc : parseCfg ((s.dropWhile isWs).drop d.cfgMarkerLen) with
      | none =>
        left
        exact ⟨.directiveParseError,
          by rw [processLine_dir_eq hdir hlen, hpc],
          by rw [processLine_dir_eq hdir hlen, hpc]⟩
      | some tag =>
        cases tag with
        | Start g =>
          right
          refine ⟨s, s, (g.matches c1, s.takeWhile isWs) :: st1,
            (g.matches c2, s.takeWhile isWs) :: st2,
            by rw [processLine_dir_eq hdir hlen, hpc],
            by rw [processLine_dir_eq hdir hlen, hpc], ?_⟩
          unfold samePre at h ⊢
          simp [h]
        | End =>
          cases st1 with
          | nil =>
            cases st2 with
            | nil =>
              left
              exact ⟨.unbalancedEnd,
                by rw [processLine_dir_eq hdir hlen, hpc],
                by rw [processLine_dir_eq hdir hlen, hpc]⟩
            | cons b m => simp [samePre] at h
          | cons a l =>
            cases st2 with
            | nil => simp [samePre] at h
            | cons b m =>
              right
              refine ⟨s, s, l, m,
                by rw [processLine_dir_eq hdir hlen, hpc],
                by rw [processLine_dir_eq hdir hlen, hpc], ?_⟩
              simp only [samePre, List.map_cons, List.cons.injEq] at h
              exact h.2
    · left
      exact ⟨.slicePanic, processLine_dir_short hdir hlen,
        processLine_dir_short hdir hlen⟩
  · have hd2 : isDirective d s = false := by
      cases hval : isDirective d s
      · rfl
      · exact absurd hval hdir
    by_cases hb : rustTrim s = []
    · right
      exact ⟨s, s, st1, st2, processLine_blank_eq hd2 hb,
        processLine_blank_eq hd2 hb, h⟩
    · have hps : stackPre st1 = stackPre st2 := samePre_stackPre h
      cases hpre : (stackPre st1).isPrefixOf s with
      | false =>
        left
        refine ⟨.prefixMismatch, processLine_content_bad hd2 hb hpre,
          processLine_content_bad hd2 hb ?_⟩
        rw [← hps]
        exact hpre
      | true =>
        right
        refine ⟨contentRewrite d c1 st1 s, contentRewrite d c2 st2 s, st1, st2,
          processLine_content_eq hd2 hb hpre,
          processLine_content_eq hd2 hb ?_, h⟩
        rw [← hps]
        exact hpre

/-- List version of `processLine_parallel`. -/
lemma processFrom_parallel {d : LangDesc} {c1 c2 : Data} :
    ∀ {l : List Line} {st1 st2 : CfgState}, samePre st1 st2 →
      (∃ e, processFrom d c1 l st1 = .error e ∧
        processFrom d c2 l st2 = .error e) ∨
      (∃ m1 m2 f1 f2, processFrom d c1 l st1 = .ok (m1, f1) ∧
        processFrom d c2 l st2 = .ok (m2, f2) ∧ samePre f1 f2) := by
  intro l
  induction l with
  | nil =>
    intro st1 st2 h
    right
    exact ⟨[], [], st1, st2, rfl, rfl, h⟩
  | cons s rest ih =>
    intro st1 st2 h
    rcases @processLine_parallel d c1 c2 st1 st2 s h with ⟨e, h1, h2⟩ |
      ⟨t1, t2, st1b, st2b, h1, h2, hb⟩
    · left
      exact ⟨e, by simp [processFrom, h1], by simp [processFrom, h2]⟩
    · rcases ih hb with ⟨e, k1, k2⟩ | ⟨m1, m2, f1, f2, k1, k2, kb⟩
      · left
        exact ⟨e, by simp [processFrom, h1, k1], by simp [processFrom, h2, k2]⟩
      · right
        exact ⟨t1 :: m1, t2 :: m2, f1, f2, by simp [processFrom, h1, k1],
          by simp [processFrom, h2, k2], kb⟩

/-- One step of the reset-normal-form argument: if a line processed under
configuration `c` satisfies `postOk`, then a reset run treats the
rewritten line and the original line identically, from any stack with the
same prefixes, and the stacks stay in `samePre`. -/
lemma processLine_resetStep {d : LangDesc} {c rc : Data} {stA stR stA2 : CfgState}
    {s t : Line} (hrc : rc.reset = true) (hsp : samePre stA stR)
    (hok : processLine d c stA s = .ok (t, stA2)) (hpost : postOk d c stA s = true) :
    ∃ u stR2, processLine d rc stR s = .ok (u, stR2) ∧
      processLine d rc stR t = .ok (u, stR2) ∧ samePre stA2 stR2 := by
  by_cases hdir : isDirective d s = true
  · have ht := processLine_dir_unchanged hdir hok
    rw [ht]
    by_cases hlen : d.cfgMarkerLen ≤ (s.dropWhile isWs).length
    · rw [processLine_dir_eq hdir hlen] at hok
      cases hpc : parseCfg ((s.dropWhile isWs).drop d.cfgMarkerLen) with
      | none => rw [hpc] at hok; exact absurd hok (by simp)
      | some tag =>
        rw [hpc] at hok
        cases tag with
        | Start g =>
          have hst : (g.matches c, s.takeWhile isWs) :: stA = stA2 :=
            congrArg Prod.snd (Except.ok.inj hok)
          refine ⟨s, (g.matches rc, s.takeWhile isWs) :: stR,
            by rw [processLine_dir_eq hdir hlen, hpc],
            by rw [processLine_dir_eq hdir hlen, hpc], ?_⟩
          rw [← hst]
          simp only [samePre, List.map_cons]
          rw [hsp]
        | End =>
          cases stA with
          | nil => exact absurd hok (by simp)
          | cons frA restA =>
            cases stR with
            | nil => simp [samePre] at hsp
            | cons frR restR =>
              have hst : restA = stA2 := congrArg Prod.snd (Except.ok.inj hok)
              refine ⟨s, restR,
                by rw [processLine_dir_eq hdir hlen, hpc],
                by rw [processLine_dir_eq hdir hlen, hpc], ?_⟩
              rw [← hst]
              simp only [samePre, List.map_cons, List.cons.injEq] at hsp
              exact hsp.2
    · rw [processLine_dir_short hdir hlen] at hok
      exact absurd hok (by simp)
  · have hd2 : isDirective d s = false := by
      cases hval : isDirective d s
      · rfl
      · exact absurd hval hdir
    by_cases hb : rustTrim s = []
    · rw [processLine_blank_eq hd2 hb] at hok
      have hts : s = t := congrArg Prod.fst (Except.ok.inj hok)
      have hst : stA = stA2 := congrArg Prod.snd (Except.ok.inj hok)
      rw [← hts, ← hst]
      exact ⟨s, stR, processLine_blank_eq hd2 hb, processLine_blank_eq hd2 hb, hsp⟩
    · obtain ⟨hpre, ht, hstA⟩ := processLine_content_ok_pre hd2 hb hok
      have hstA2 : stA = stA2 := hstA.symm
      subst hstA2
      have hps : stackPre stA = stackPre stR := samePre_stackPre hsp
      have hpre2 : (stackPre stR).isPrefixOf s = true := by
        rw [← hps]
        exact hpre
      have hC : processLine d rc stR s = .ok (contentRewrite d rc stR s, stR) :=
        processLine_content_eq hd2 hb hpre2
      unfold postOk at hpost
      rw [processLine_content_eq hd2 hb hpre, ← ht] at hpost
      simp only [Bool.or_eq_true] at hpost
      rcases hpost with hts | hrest
      · have hts2 : t = s := by simpa using hts
        rw [hts2]
        exact ⟨contentRewrite d rc stR s, stR, hC, hC, hsp⟩
      · simp only [Bool.and_eq_true] at hrest
        have hnd : isDirective d t = false := by simpa using hrest.1
        have hcond : (!(d.comment.isPrefixOf (t.drop (stackPre stA).length))) =
            (c.reset || stackEnabled stA) := by simpa using hrest.2
        cases hm : d.comment.isPrefixOf (s.drop (stackPre stA).length) with
        | true =>
          cases hsb : (c.reset || stackEnabled stA) with
          | true =>
            have htf : t =
                stackPre stA ++ (s.drop (stackPre stA).length).drop d.comment.length := by
              rw [ht]
              simp only [contentRewrite]
              rw [hm, hsb]
              simp
            have hu : contentRewrite d rc stR s = t := by
              rw [contentRewrite_reset hrc, ← hps, htf, if_pos hm]
            by_cases hbt : rustTrim t = []
            · exact ⟨t, stR, by rw [hC, hu], processLine_blank_eq hnd hbt, hsp⟩
            · have hmt : d.comment.isPrefixOf (t.drop (stackPre stR).length) = false := by
                rw [← hps]
                rw [hsb] at hcond
                simpa using hcond
              have hpt : (stackPre stR).isPrefixOf t = true := by
                rw [← hps, htf]
                exact isPrefixOf_append _ _
              have hnt : ¬ (d.comment.isPrefixOf (t.drop (stackPre stR).length) = true) := by
                rw [hmt]
                exact Bool.false_ne_true
              refine ⟨t, stR, by rw [hC, hu], ?_, hsp⟩
              rw [processLine_content_eq hnd hbt hpt, contentRewrite_reset hrc,
                if_neg hnt]
          | false =>
            have hts2 : t = s := by
              rw [ht]
              simp only [contentRewrite]
              rw [hm, hsb]
              simp
            rw [hts2]
            exact ⟨contentRewrite d rc stR s, stR, hC, hC, hsp⟩
        | false =>
          cases hsb : (c.reset || stackEnabled stA) with
          | true =>
            have hts2 : t = s := by
              rw [ht]
              simp only [contentRewrite]
              rw [hm, hsb]
              simp
            rw [hts2]
            exact ⟨contentRewrite d rc stR s, stR, hC, hC, hsp⟩
          | false =>
            have htf : t = stackPre stA ++ d.comment ++ s.drop (stackPre stA).length := by
              rw [ht]
              simp only [contentRewrite]
              rw [hm, hsb]
              simp
            have hnm : ¬ (d.comment.isPrefixOf (s.drop (stackPre stA).length) = true) := by
              rw [hm]
              exact Bool.false_ne_true
            have hu : contentRewrite d rc stR s = s := by
              rw [contentRewrite_reset hrc, ← hps, if_neg hnm]
            have hbt : rustTrim t ≠ [] := by
              intro hblank
              apply hb
              rw [rustTrim_nil_iff] at hblank ⊢
              intro ch hch
              apply hblank
              rw [htf]
              have hs2 : s = stackPre stA ++ s.drop (stackPre stA).length :=
                (prefix_drop_append hpre).symm
              rw [hs2] at hch
              simp only [List.mem_append] at hch ⊢
              tauto
            have hpt : (stackPre stR).isPrefixOf t = true := by
              rw [← hps, htf, List.append_assoc]
              exact isPrefixOf_append _ _
            have hdrop : t.drop (stackPre stR).length =
                d.comment ++ s.drop (stackPre stA).length := by
              rw [← hps, htf, List.append_assoc, List.drop_left]
            have hcondt : d.comment.isPrefixOf (t.drop (stackPre stR).length) = true := by
              rw [hdrop]
              exact isPrefixOf_append _ _
            refine ⟨s, stR, by rw [hC, hu], ?_, hsp⟩
            rw [processLine_content_eq hnd hbt hpt, contentRewrite_reset hrc,
              if_pos hcondt, hdrop, List.drop_left, ← hps, prefix_drop_append hpre]

/-- A reset run maps the output of a `passStable` run and the original
input to the same result, from any stack with the same prefixes. -/
lemma processFrom_resetRun {d : LangDesc} {c rc : Data} (hrc : rc.reset = true) :
    ∀ {l m : List Line} {stA stR stA2 : CfgState}, samePre stA stR →
      processFrom d c l stA = .ok (m, stA2) → passStable d c stA l = true →
      processFrom d rc m stR = processFrom d rc l stR := by
  intro l
  induction l with
  | nil =>
    intro m stA stR stA2 hsp hok hp
    have hm : ([] : List Line) = m := congrArg Prod.fst (Except.ok.inj hok)
    rw [← hm]
  | cons s rest ih =>
    intro m stA stR stA2 hsp hok hp
    simp only [processFrom] at hok
    simp only [passStable] at hp
    cases hline : processLine d c stA s with
    | error e => simp [hline] at hok
    | ok r =>
      obtain ⟨t, stB⟩ := r
      simp only [hline] at hok hp
      cases htail : processFrom d c rest stB with
      | error e => simp [htail] at hok
      | ok rr =>
        obtain ⟨ts, stf2⟩ := rr
        simp only [htail] at hok
        have hm : t :: ts = m := congrArg Prod.fst (Except.ok.inj hok)
        simp only [Bool.and_eq_true] at hp
        obtain ⟨u, stR2, hCs, hCt, hsp2⟩ := processLine_resetStep hrc hsp hline hp.1
        have htails := ih hsp2 htail hp.2
        rw [← hm]
        simp only [processFrom, hCs, hCt, htails]

/-- C2, amended: toggling with any configuration and then with a reset
configuration yields the same output as toggling with any other
configuration and then resetting, provided both first runs are
second-pass stable (no doubly commented content lines, no rewrites that
change a line's classification).  Without that proviso the property
fails; see the counterexample.  When the first runs fail they fail with
the same error, so the composites still agree. -/
theorem claim_C2 (d : LangDesc) (c1 c2 rc : Data) (l : List Line)
    (hrc : rc.reset = true)
    (h1 : passStable d c1 [] l = true) (h2 : passStable d c2 [] l = true) :
    (process d c1 l).bind (process d rc) = (process d c2 l).bind (process d rc) := by
  rcases @processFrom_parallel d c1 c2 l [] [] rfl with ⟨e, hE1, hE2⟩ |
    ⟨m1, m2, f1, f2, hO1, hO2, hspf⟩
  · unfold process
    rw [hE1, hE2]
  · unfold process
    rw [hO1, hO2]
    have hr1 := processFrom_resetRun hrc (show samePre [] [] from rfl) hO1 h1
    have hr2 := processFrom_resetRun hrc (show samePre [] [] from rfl) hO2 h2
    simp only [Except.map, Except.bind]
    rw [hr1, hr2]

/-- C2 fails as stated: with a doubly commented line inside a feature
scope, the configuration that enables the feature strips one marker
before the reset pass while the one that disables it leaves both, and the
reset pass strips only one more, so the two composites differ. -/
theorem claim_C2_counterexample :
    ¬ ((process descA ⟨[str "x"], false⟩
          [str "//[cfg(feature = \"x\")]", str "//# //# y", str "//[cfg(end)]"]).bind
          (process descA ⟨[], true⟩) =
        (process descA ⟨[], false⟩
          [str "//[cfg(feature = \"x\")]", str "//# //# y", str "//[cfg(end)]"]).bind
          (process descA ⟨[], true⟩)) := by
  decide

/-- Witness for C2 on Scenario A's input with the feature enabled in one
configuration and disabled in the other. -/
theorem claim_C2_witness :
    passStable descA ⟨[str "x"], false⟩ []
        [str "//[cfg(feature = \"x\")]", str "//# line_a();", str "//[cfg(end)]"] = true ∧
    passStable descA ⟨[], false⟩ []
        [str "//[cfg(feature = \"x\")]", str "//# line_a();", str "//[cfg(end)]"] = true ∧
    (process descA ⟨[str "x"], false⟩
        [str "//[cfg(feature = \"x\")]", str "//# line_a();", str "//[cfg(end)]"]).bind
        (process descA ⟨[], true⟩) =
      (process descA ⟨[], false⟩
        [str "//[cfg(feature = \"x\")]", str "//# line_a();", str "//[cfg(end)]"]).bind
        (process descA ⟨[], true⟩) :=
  ⟨by decide, by decide,
   claim_C2 descA ⟨[str "x"], false⟩ ⟨[], false⟩ ⟨[], true⟩
     [str "//[cfg(feature = \"x\")]", str "//# line_a();", str "//[cfg(end)]"]
     rfl (by decide) (by decide)⟩

end Cfg
